import Mathlib

/-!
Verification of the Fiat–Shamir transcript channel (`stark/src/channel.rs`):
`PublicCoin`, `ProverChannel` and `VerifierChannel`, their typed write /
replay operations and the proof-of-work primitive.  Bytes are modelled as
natural numbers, byte strings as `List Nat`, `u64` / `U256` values as `Nat`
(truncated to the relevant width exactly where the machine type truncates),
and Keccak-256 is implemented executably (pre-NIST padding, `0x01` domain
byte, as in the `tiny_keccak` "keccak" variant used by the source).
-/

/-- Left-rotation of a 64-bit lane. -/
def rotl64 (x n : Nat) : Nat :=
  ((x <<< n) % 18446744073709551616) ||| (x >>> (64 - n))

/-- State of the degree-8 LFSR (feedback polynomial
`x^8 + x^6 + x^5 + x^4 + 1`, FIPS 202 Algorithm 5) after `t` steps; its low
bit is `rc(t)`. -/
def rcLfsr : Nat → Nat
  | 0 => 1
  | t + 1 =>
    let r := rcLfsr t <<< 1
    if 256 ≤ r then (r ^^^ 0x171) % 256 else r

/-- Round constants of Keccak-f[1600]: round `i` has bit `2^j - 1` set to
`rc(7 i + j)` for `j = 0, …, 6`, which reproduces the usual 24-entry table
(`0x0000000000000001`, `0x0000000000008082`, …, `0x8000000080008008`). -/
def keccakRC : List Nat :=
  (List.range 24).map fun i =>
    (List.range 7).foldl (fun acc j => acc ||| ((rcLfsr (7 * i + j) &&& 1) <<< (2 ^ j - 1))) 0

/-- Rotation offsets of the ρ step, indexed by lane `x + 5 * y`: walking the
π orbit from `(1, 0)`, lane `(x, y)` of step `t` rotates by the triangular
number `(t + 1)(t + 2) / 2 mod 64`, which reproduces the usual table
(0, 1, 62, 28, 27, …, 14). -/
def rotOff : List Nat :=
  (((List.range 24).foldl
    (fun s t =>
      (s.2.1, (2 * s.1 + 3 * s.2.1) % 5,
       s.2.2.set (s.1 + 5 * s.2.1) ((t + 1) * (t + 2) / 2 % 64)))
    ((1, 0, List.replicate 25 0) : Nat × Nat × List Nat))).2.2

/-- One round of Keccak-f[1600] (θ, ρ, π, χ, ι) on a 25-lane state. -/
def keccakRound (s : List Nat) (rc : Nat) : List Nat :=
  let g := fun (l : List Nat) (i : Nat) => l.getD i 0
  let c := (List.range 5).map fun x =>
    g s x ^^^ g s (x + 5) ^^^ g s (x + 10) ^^^ g s (x + 15) ^^^ g s (x + 20)
  let d := (List.range 5).map fun x => g c ((x + 4) % 5) ^^^ rotl64 (g c ((x + 1) % 5)) 1
  let a := (List.range 25).map fun i => g s i ^^^ g d (i % 5)
  let b := (List.range 25).map fun j =>
    let x := (j % 5 + 3 * (j / 5)) % 5
    let y := j % 5
    rotl64 (g a (x + 5 * y)) (g rotOff (x + 5 * y))
  let chi := (List.range 25).map fun j =>
    let x := j % 5
    let y := j / 5
    g b j ^^^ ((0xFFFFFFFFFFFFFFFF ^^^ g b ((x + 1) % 5 + 5 * y)) &&& g b ((x + 2) % 5 + 5 * y))
  match chi with
  | t0 :: rest => (t0 ^^^ rc) :: rest
  | [] => []

/-- The full Keccak-f[1600] permutation: 24 rounds. -/
def keccakF (s : List Nat) : List Nat := keccakRC.foldl keccakRound s

/-- Multi-rate padding `pad10*1` with the pre-NIST `0x01` domain byte, for
rate 136 bytes (Keccak-256). -/
def keccakPad (len : Nat) : List Nat :=
  let padLen := 136 - len % 136
  if padLen = 1 then [0x81]
  else 0x01 :: (List.replicate (padLen - 2) 0 ++ [0x80])

/-- Read up to eight bytes as a little-endian 64-bit lane. -/
def bytesToLane (bs : List Nat) : Nat := bs.foldr (fun b acc => b % 256 + 256 * acc) 0

/-- XOR a 136-byte rate block into the first 17 lanes of the state. -/
def xorBlock (s : List Nat) (block : List Nat) : List Nat :=
  (List.range 25).map fun i => s.getD i 0 ^^^ bytesToLane ((block.drop (8 * i)).take 8)

/-- Absorb the padded message block by block; the fuel bounds the number of
blocks (the padded length is an exact multiple of 136). -/
def keccakAbsorb : Nat → List Nat → List Nat → List Nat
  | 0, s, _ => s
  | fuel + 1, s, bs =>
    if bs = [] then s
    else keccakAbsorb fuel (keccakF (xorBlock s (bs.take 136))) (bs.drop 136)

/-- Write a 64-bit lane as eight little-endian bytes. -/
def laneToBytes (v : Nat) : List Nat := (List.range 8).map fun k => (v >>> (8 * k)) % 256

/-- Modelled from the spec: Keccak-256 as provided by the external
`tiny_keccak` crate (`Keccak::new_keccak256`), the pre-SHA3 variant with the
`0x01` domain byte (spec §6); 32-byte digest of an arbitrary byte string. -/
def keccak256 (msg : List Nat) : List Nat :=
  let padded := msg ++ keccakPad msg.length
  let s := keccakAbsorb (msg.length / 136 + 2) (List.replicate 25 0) padded
  laneToBytes (s.getD 0 0) ++ laneToBytes (s.getD 1 0) ++
    laneToBytes (s.getD 2 0) ++ laneToBytes (s.getD 3 0)

/-- Modelled from the spec: big-endian fixed-width encoding used by
`u64::to_be_bytes` (n = 8) and `U256::to_bytes_be` (n = 32) of the `u256`
crate; high bits beyond the width are dropped exactly as the machine type
cannot hold them. -/
def beBytes : Nat → Nat → List Nat
  | 0, _ => []
  | n + 1, v => beBytes n (v / 256) ++ [v % 256]

/-- Modelled from the spec: big-endian decoding used by
`u64::from_be_bytes` and `U256::from_bytes_be`. -/
def fromBeBytes (bs : List Nat) : Nat := bs.foldl (fun acc b => 256 * acc + b) 0

/-- Bit length of a natural number, with enough fuel to cover 256-bit
values. -/
def bitLenAux : Nat → Nat → Nat
  | 0, _ => 0
  | fuel + 1, n => if n = 0 then 0 else bitLenAux fuel (n / 2) + 1

/-- Modelled from the spec: `U256::leading_zeros` of the `u256` crate — the
number of leading zero bits of a value interpreted as a 256-bit big-endian
integer. -/
def leadingZeros256 (n : Nat) : Nat := 256 - bitLenAux 256 n

/-- Modelled from the spec: `FieldElement::MODULUS` of the `primefield`
crate (not under `src/`): the STARK prime `2^251 + 17 * 2^192 + 1`. -/
def MODULUS : Nat := 0x0800000000000011000000000000000000000000000000000000000000000001

/-- The 252-bit mask applied before the field-element rejection test
(`RandomGenerator<FieldElement> for PublicCoin`). -/
def MASK : Nat := 0x0FFFFFFFFFFFFFFFFFFFFFFFFFFFFFFFFFFFFFFFFFFFFFFFFFFFFFFFFFFFFFFF

/-- The public coin: a 32-byte digest and a 64-bit draw counter. -/
structure PublicCoin where
  digest : List Nat
  counter : Nat
  deriving DecidableEq

/-- `PublicCoin::new`: digest := Keccak256(seed), counter := 0. -/
def PublicCoin.new (seed : List Nat) : PublicCoin :=
  { digest := keccak256 seed, counter := 0 }

/-- `Writable<&[u8]> for PublicCoin`: digest := Keccak256(digest ‖ data),
counter := 0. -/
def PublicCoin.write_bytes (c : PublicCoin) (data : List Nat) : PublicCoin :=
  { digest := keccak256 (c.digest ++ data), counter := 0 }

/-- `RandomGenerator<[u8; 32]> for PublicCoin`: the drawn block is
Keccak256(digest ‖ 0^24 ‖ counter_be_u64); the counter then advances by one
(wrapping as the `u64` does). -/
def PublicCoin.get_random_block (c : PublicCoin) : List Nat × PublicCoin :=
  (keccak256 (c.digest ++ List.replicate 24 0 ++ beBytes 8 c.counter),
   { c with counter := (c.counter + 1) % 2 ^ 64 })

/-- `RandomGenerator<U256> for PublicCoin`: the drawn block, read big-endian. -/
def PublicCoin.get_random_u256 (c : PublicCoin) : Nat × PublicCoin :=
  let r := c.get_random_block
  (fromBeBytes r.1, r.2)

/-- `RandomGenerator<FieldElement> for PublicCoin`: rejection sampling — draw
a `U256`, mask off the top four bits, accept iff the result is below the
modulus.  The source loops unboundedly; the fuel bounds the number of
iterations of the loop and `none` means the bound was exhausted. -/
def PublicCoin.get_random_field_aux : PublicCoin → Nat → Option (Nat × PublicCoin)
  | _, 0 => none
  | c, fuel + 1 =>
    let r := c.get_random_u256
    let number := r.1
    let seed := number &&& MASK
    if seed < MODULUS then some (seed, r.2) else PublicCoin.get_random_field_aux r.2 fuel

/-- The fixed 8-byte proof-of-work domain tag `0x0123456789abcded`. -/
def powTag : List Nat := [0x01, 0x23, 0x45, 0x67, 0x89, 0xab, 0xcd, 0xed]

/-- `PublicCoin::pow_seed`: Keccak256(tag ‖ digest ‖ [bits]). -/
def PublicCoin.pow_seed (c : PublicCoin) (pow_bits : Nat) : List Nat :=
  keccak256 (powTag ++ c.digest ++ [pow_bits % 256])

/-- `PublicCoin::pow_verify_with_seed`: accept iff
Keccak256(seed ‖ nonce_be_u64), read big-endian, has at least `pow_bits`
leading zero bits. -/
def pow_verify_with_seed (nonce pow_bits : Nat) (seed : List Nat) : Bool :=
  decide (pow_bits ≤ leadingZeros256 (fromBeBytes (keccak256 (seed ++ beBytes 8 nonce))))

/-- `PublicCoin::pow_verify`. -/
def PublicCoin.pow_verify (c : PublicCoin) (nonce pow_bits : Nat) : Bool :=
  pow_verify_with_seed nonce pow_bits (c.pow_seed pow_bits)

/-- `PublicCoin::pow_find_nonce`: the smallest nonce accepted by
`pow_verify`; the hypothesis records that the search returns, i.e. some
`u64` nonce verifies. -/
def PublicCoin.pow_find_nonce (c : PublicCoin) (pow_bits : Nat)
    (h : ∃ n, n < 2 ^ 64 ∧ pow_verify_with_seed n pow_bits (c.pow_seed pow_bits) = true) :
    Nat :=
  Nat.find h

/-- `PublicCoin::pow_find_nonce_threaded` (rayon `find_any` over
`0..u64::max_value()`): modelled relationally, since `find_any` may return
any element of the half-open range satisfying the predicate. -/
def pow_find_nonce_threaded_result (c : PublicCoin) (pow_bits n : Nat) : Prop :=
  n < 2 ^ 64 - 1 ∧ pow_verify_with_seed n pow_bits (c.pow_seed pow_bits) = true

/-- The prover channel: a public coin plus the append-only proof buffer. -/
structure ProverChannel where
  coin : PublicCoin
  proof : List Nat
  deriving DecidableEq

/-- `ProverChannel::new`: coin seeded, proof initialised to the seed. -/
def ProverChannel.new (seed : List Nat) : ProverChannel :=
  { coin := PublicCoin.new seed, proof := seed }

/-- `Writable<&[u8]> for ProverChannel`: append to the proof and absorb the
same bytes into the coin. -/
def ProverChannel.write_bytes (pc : ProverChannel) (data : List Nat) : ProverChannel :=
  { proof := pc.proof ++ data, coin := pc.coin.write_bytes data }

/-- `Writable<&[u8; 32]> for ProverChannel`: the 32 raw bytes. -/
def ProverChannel.write_block (pc : ProverChannel) (data : List Nat) : ProverChannel :=
  pc.write_bytes data

/-- `Writable<u64> for ProverChannel`: eight big-endian bytes. -/
def ProverChannel.write_u64 (pc : ProverChannel) (data : Nat) : ProverChannel :=
  pc.write_bytes (beBytes 8 data)

/-- `Writable<&FieldElement> for ProverChannel`: the canonical `U256`
representative, 32 big-endian bytes. -/
def ProverChannel.write_field_element (pc : ProverChannel) (data : Nat) : ProverChannel :=
  pc.write_bytes (beBytes 32 data)

/-- `Writable<&[FieldElement]> for ProverChannel`: one single write of the
concatenated per-element encodings. -/
def ProverChannel.write_field_slice (pc : ProverChannel) (data : List Nat) : ProverChannel :=
  pc.write_bytes ((data.map (beBytes 32)).flatten)

/-- `Writable<U256> for ProverChannel`: 32 big-endian bytes. -/
def ProverChannel.write_u256 (pc : ProverChannel) (data : Nat) : ProverChannel :=
  pc.write_bytes (beBytes 32 data)

/-- `Writable<Vec<U256>> for ProverChannel`: one independent write per
element. -/
def ProverChannel.write_u256_vec (pc : ProverChannel) (data : List Nat) : ProverChannel :=
  data.foldl ProverChannel.write_u256 pc

/-- A typed prover message: one value for each `Writable` instance of
`ProverChannel` exercised by the round-trip property. -/
inductive WriteData where
  | block : List Nat → WriteData
  | u64val : Nat → WriteData
  | field_elt : Nat → WriteData
  | field_slice : List Nat → WriteData
  | u256_vec : List Nat → WriteData
  deriving DecidableEq

/-- Well-formedness of a typed message: each value fits the machine type it
models (`[u8; 32]`, `u64`, `U256`). -/
def WriteData.wf : WriteData → Bool
  | .block b => decide (b.length = 32)
  | .u64val n => decide (n < 2 ^ 64)
  | .field_elt x => decide (x < 2 ^ 256)
  | .field_slice xs => decide (∀ x ∈ xs, x < 2 ^ 256)
  | .u256_vec xs => decide (∀ x ∈ xs, x < 2 ^ 256)

/-- The bytes a typed write appends to the proof. -/
def encBytes : WriteData → List Nat
  | .block b => b
  | .u64val n => beBytes 8 n
  | .field_elt x => beBytes 32 x
  | .field_slice xs => (xs.map (beBytes 32)).flatten
  | .u256_vec xs => (xs.map (beBytes 32)).flatten

/-- The bytes a sequence of typed writes appends to the proof. -/
def encAll (ws : List WriteData) : List Nat := (ws.map encBytes).flatten

/-- Dispatch one typed write on the prover channel. -/
def proverStep (pc : ProverChannel) : WriteData → ProverChannel
  | .block b => pc.write_block b
  | .u64val n => pc.write_u64 n
  | .field_elt x => pc.write_field_element x
  | .field_slice xs => pc.write_field_slice xs
  | .u256_vec xs => pc.write_u256_vec xs

/-- Run a sequence of typed writes on the prover channel. -/
def proverRun : ProverChannel → List WriteData → ProverChannel
  | pc, [] => pc
  | pc, w :: ws => proverRun (proverStep pc w) ws

/-- The prover's coin after each typed write, in order. -/
def proverCoins : ProverChannel → List WriteData → List PublicCoin
  | _, [] => []
  | pc, w :: ws => (proverStep pc w).coin :: proverCoins (proverStep pc w) ws

/-- The two failures a verifier channel can hit: an out-of-bounds slice of
the proof buffer (a panic in the source) and the seed/prefix assertion of
the constructor. -/
inductive ChannelError where
  | outOfBounds : ChannelError
  | prefixMismatch : ChannelError
  deriving DecidableEq

/-- The verifier channel: a public coin, the full proof and a read cursor. -/
structure VerifierChannel where
  coin : PublicCoin
  proof : List Nat
  proof_index : Nat
  deriving DecidableEq

/-- `VerifierChannel::new`: slicing `proof[..seed.len()]` demands
`seed.len() ≤ proof.len()` (out-of-bounds otherwise, before any
comparison); then `assert_eq!(seed, &proof[..seed.len()])`; on success the
cursor starts right after the seed. -/
def VerifierChannel.new (seed : List Nat) (proof : List Nat) :
    Except ChannelError VerifierChannel :=
  if seed.length ≤ proof.length then
    if proof.take seed.length = seed then
      .ok { coin := PublicCoin.new seed, proof := proof, proof_index := seed.length }
    else .error .prefixMismatch
  else .error .outOfBounds

/-- `Replayable<[u8; 32]> for VerifierChannel`: advance the cursor, copy the
32 bytes (an out-of-bounds slice if fewer remain; the cursor was already
advanced at that point, mirroring the source's order), absorb them. -/
def VerifierChannel.replay_block (vc : VerifierChannel) :
    Except ChannelError (List Nat) × VerifierChannel :=
  let start := vc.proof_index
  let stop := start + 32
  if stop ≤ vc.proof.length then
    let holder := (vc.proof.drop start).take 32
    (.ok holder, { vc with proof_index := stop, coin := vc.coin.write_bytes holder })
  else
    (.error .outOfBounds, { vc with proof_index := stop })

/-- `Replayable<u64> for VerifierChannel`: eight bytes, big-endian. -/
def VerifierChannel.replay_u64 (vc : VerifierChannel) :
    Except ChannelError Nat × VerifierChannel :=
  let start := vc.proof_index
  let stop := start + 8
  if stop ≤ vc.proof.length then
    let holder := (vc.proof.drop start).take 8
    (.ok (fromBeBytes holder), { vc with proof_index := stop, coin := vc.coin.write_bytes holder })
  else
    (.error .outOfBounds, { vc with proof_index := stop })

/-- `Replayable<U256> for VerifierChannel`: a replayed block, read
big-endian. -/
def VerifierChannel.replay_u256 (vc : VerifierChannel) :
    Except ChannelError Nat × VerifierChannel :=
  match vc.replay_block with
  | (.ok holder, vc') => (.ok (fromBeBytes holder), vc')
  | (.error e, vc') => (.error e, vc')

/-- `Replayable<FieldElement>::replay`: a replayed block, wrapped as a field
element without reduction. -/
def VerifierChannel.replay_field_element (vc : VerifierChannel) :
    Except ChannelError Nat × VerifierChannel :=
  match vc.replay_block with
  | (.ok holder, vc') => (.ok (fromBeBytes holder), vc')
  | (.error e, vc') => (.error e, vc')

/-- The element-reading loop of `Replayable<FieldElement>::replay_many`: it
only moves the cursor; the coin is untouched until the single absorption at
the end. -/
def replay_many_field_loop : Nat → VerifierChannel → Except ChannelError (List Nat) × VerifierChannel
  | 0, vc => (.ok [], vc)
  | n + 1, vc =>
    let start := vc.proof_index
    let stop := start + 32
    if stop ≤ vc.proof.length then
      let holder := (vc.proof.drop start).take 32
      match replay_many_field_loop n { vc with proof_index := stop } with
      | (.ok vs, vc') => (.ok (fromBeBytes holder :: vs), vc')
      | (e, vc') => (e, vc')
    else (.error .outOfBounds, { vc with proof_index := stop })

/-- `Replayable<FieldElement>::replay_many`: read all elements, then absorb
`proof[start_index..proof_index]` as one single block. -/
def VerifierChannel.replay_many_field (vc : VerifierChannel) (len : Nat) :
    Except ChannelError (List Nat) × VerifierChannel :=
  let start := vc.proof_index
  match replay_many_field_loop len vc with
  | (.ok vs, vc') =>
    (.ok vs,
     { vc' with
       coin := vc'.coin.write_bytes ((vc'.proof.drop start).take (vc'.proof_index - start)) })
  | (e, vc') => (e, vc')

/-- The default `Replayable::replay_many` used for `U256`: one independent
`replay` (hence one independent absorption) per element. -/
def VerifierChannel.replay_many_u256 : VerifierChannel → Nat → Except ChannelError (List Nat) × VerifierChannel
  | vc, 0 => (.ok [], vc)
  | vc, n + 1 =>
    match vc.replay_u256 with
    | (.ok v, vc') =>
      match vc'.replay_many_u256 n with
      | (.ok vs, vc'') => (.ok (v :: vs), vc'')
      | (e, vc'') => (e, vc'')
    | (.error e, vc') => (.error e, vc')

/-- Replay one typed message of the same type (and, for the sequence forms,
the same length) as a prover write; the decoded values are packaged back as
a `WriteData` for comparison with the original. -/
def replayStep (vc : VerifierChannel) : WriteData → Except ChannelError (WriteData × VerifierChannel)
  | .block _ =>
    match vc.replay_block with
    | (.ok b, vc') => .ok (.block b, vc')
    | (.error e, _) => .error e
  | .u64val _ =>
    match vc.replay_u64 with
    | (.ok n, vc') => .ok (.u64val n, vc')
    | (.error e, _) => .error e
  | .field_elt _ =>
    match vc.replay_field_element with
    | (.ok x, vc') => .ok (.field_elt x, vc')
    | (.error e, _) => .error e
  | .field_slice xs =>
    match vc.replay_many_field xs.length with
    | (.ok vs, vc') => .ok (.field_slice vs, vc')
    | (.error e, _) => .error e
  | .u256_vec xs =>
    match vc.replay_many_u256 xs.length with
    | (.ok vs, vc') => .ok (.u256_vec vs, vc')
    | (.error e, _) => .error e

/-- Replay a whole type sequence, recording the decoded message and the
verifier's coin after each replay. -/
def verifierRun : VerifierChannel → List WriteData → Except ChannelError (List (WriteData × PublicCoin) × VerifierChannel)
  | vc, [] => .ok ([], vc)
  | vc, w :: ws =>
    match replayStep vc w with
    | .ok (v, vc') =>
      match verifierRun vc' ws with
      | .ok (out, vcf) => .ok ((v, vc'.coin) :: out, vcf)
      | .error e => .error e
    | .error e => .error e

/-- The seed `0x0123456789abcded` used by the source's own tests. -/
def testSeed : List Nat := [0x01, 0x23, 0x45, 0x67, 0x89, 0xab, 0xcd, 0xed]

theorem beBytes_length (n v : Nat) : (beBytes n v).length = n := by
  induction n generalizing v with
  | zero => rfl
  | succ n ih => simp [beBytes, ih]

theorem fromBeBytes_append_byte (l : List Nat) (b : Nat) :
    fromBeBytes (l ++ [b]) = 256 * fromBeBytes l + b := by
  simp [fromBeBytes, List.foldl_append]

theorem fromBeBytes_beBytes (n v : Nat) : fromBeBytes (beBytes n v) = v % 256 ^ n := by
  induction n generalizing v with
  | zero => simp [beBytes, fromBeBytes, Nat.mod_one]
  | succ n ih =>
    have h : v % (256 * 256 ^ n) = v % 256 + 256 * (v / 256 % 256 ^ n) := Nat.mod_mul
    rw [beBytes, fromBeBytes_append_byte, ih, pow_succ']
    omega

theorem drop_take_append (pre mid rest : List Nat) :
    ((pre ++ (mid ++ rest)).drop pre.length).take mid.length = mid := by
  rw [List.drop_left, List.take_left]

theorem enc32_length (xs : List Nat) : ((xs.map (beBytes 32)).flatten).length = 32 * xs.length := by
  induction xs with
  | nil => simp
  | cons x xs ih => simp [beBytes_length, ih]; omega

theorem bitLenAux_le_iff (fuel v k : Nat) (hv : v < 2 ^ fuel) :
    bitLenAux fuel v ≤ k ↔ v < 2 ^ k := by
  induction fuel generalizing v k with
  | zero =>
    have hv0 : v = 0 := by simpa using hv
    subst hv0
    exact iff_of_true (by simp [bitLenAux]) (pow_pos (by norm_num) k)
  | succ fuel ih =>
    by_cases h0 : v = 0
    · subst h0
      exact iff_of_true (by simp [bitLenAux]) (pow_pos (by norm_num) k)
    · rw [bitLenAux, if_neg h0]
      cases k with
      | zero => exact iff_of_false (by omega) (by omega)
      | succ k =>
        have hv2 : v / 2 < 2 ^ fuel := by
          rw [pow_succ] at hv
          omega
        rw [Nat.succ_le_succ_iff, ih (v / 2) k hv2, pow_succ]
        omega

theorem fromBeBytes_lt (bs : List Nat) (hb : ∀ b ∈ bs, b < 256) :
    fromBeBytes bs < 256 ^ bs.length := by
  induction bs using List.reverseRecOn with
  | nil => simp [fromBeBytes]
  | append_singleton l b ih =>
    rw [fromBeBytes_append_byte]
    have hb' : b < 256 := hb b (by simp)
    have hl : fromBeBytes l < 256 ^ l.length := ih (fun x hx => hb x (by simp [hx]))
    simp only [List.length_append, List.length_singleton, pow_succ]
    omega

theorem laneToBytes_length (v : Nat) : (laneToBytes v).length = 8 := by
  simp [laneToBytes]

theorem laneToBytes_lt (v : Nat) : ∀ b ∈ laneToBytes v, b < 256 := by
  intro b hb
  simp only [laneToBytes, List.mem_map, List.mem_range] at hb
  obtain ⟨k, _, rfl⟩ := hb
  exact Nat.mod_lt _ (by norm_num)

theorem keccak256_length (msg : List Nat) : (keccak256 msg).length = 32 := by
  simp [keccak256, laneToBytes_length]

theorem keccak256_bytes_lt (msg : List Nat) : ∀ b ∈ keccak256 msg, b < 256 := by
  intro b hb
  simp only [keccak256, List.mem_append] at hb
  rcases hb with ((h | h) | h) | h <;> exact laneToBytes_lt _ _ h

theorem keccak256_value_lt (msg : List Nat) : fromBeBytes (keccak256 msg) < 2 ^ 256 := by
  have h := fromBeBytes_lt (keccak256 msg) (keccak256_bytes_lt msg)
  rw [keccak256_length] at h
  have h2 : (256 : Nat) ^ 32 = 2 ^ 256 := by norm_num
  omega

/-- C4: absorbing a byte string (empty included) sets the digest to
Keccak256(old_digest ‖ data) — plain concatenation, no length prefix —
resets the counter to 0, and consequently the next drawn block after the
absorption is derived with counter bytes `be(0)`. -/
theorem write_bytes_spec (c : PublicCoin) (data : List Nat) :
    (c.write_bytes data).digest = keccak256 (c.digest ++ data) ∧
    (c.write_bytes data).counter = 0 ∧
    ((c.write_bytes data).get_random_block).1 =
      keccak256 (keccak256 (c.digest ++ data) ++ List.replicate 24 0 ++ beBytes 8 0) :=
  ⟨rfl, rfl, rfl⟩

/-- C3 (amended): drawing a 32-byte block returns
Keccak256(digest ‖ 0^24 ‖ counter_be_u64), leaves the digest unchanged, and
increments the counter by exactly one as long as the `u64` counter does not
wrap (at `2^64 - 1` it wraps to zero). -/
theorem get_random_block_spec (c : PublicCoin) (h : c.counter + 1 < 2 ^ 64) :
    (c.get_random_block).1 = keccak256 (c.digest ++ List.replicate 24 0 ++ beBytes 8 c.counter) ∧
    (c.get_random_block).2.digest = c.digest ∧
    (c.get_random_block).2.counter = c.counter + 1 := by
  refine ⟨rfl, rfl, ?_⟩
  show (c.counter + 1) % 2 ^ 64 = c.counter + 1
  exact Nat.mod_eq_of_lt h

theorem get_random_block_spec_witness :
    (PublicCoin.get_random_block ⟨List.replicate 32 0, 0⟩).1 =
      keccak256 (List.replicate 32 0 ++ List.replicate 24 0 ++ beBytes 8 0) ∧
    (PublicCoin.get_random_block ⟨List.replicate 32 0, 0⟩).2.digest = List.replicate 32 0 ∧
    (PublicCoin.get_random_block ⟨List.replicate 32 0, 0⟩).2.counter = 0 + 1 :=
  get_random_block_spec ⟨List.replicate 32 0, 0⟩ (by norm_num)

/-- C3 counterexample: at `counter = 2^64 - 1` a draw wraps the counter to
zero instead of incrementing it by one. -/
theorem get_random_block_counter_wraps :
    (PublicCoin.get_random_block ⟨List.replicate 32 0, 2 ^ 64 - 1⟩).2.counter ≠ 2 ^ 64 - 1 + 1 := by
  show (2 ^ 64 - 1 + 1) % 2 ^ 64 ≠ 2 ^ 64 - 1 + 1
  norm_num

/-- C10: a proof buffer strictly shorter than the seed makes the verifier
constructor fail by the out-of-bounds slice `proof[..seed.len()]`, before
any prefix comparison — not with a prefix mismatch. -/
theorem verifier_new_short_proof (seed proof : List Nat) (h : proof.length < seed.length) :
    VerifierChannel.new seed proof = .error .outOfBounds := by
  unfold VerifierChannel.new
  rw [if_neg (by omega)]

theorem verifier_new_short_proof_witness :
    VerifierChannel.new [0] [] = .error .outOfBounds :=
  verifier_new_short_proof [0] [] (by norm_num)

/-- C8 (amended): when the proof buffer is at least as long as the seed the
constructor fails with `prefixMismatch` exactly when `proof[0..seed.len()]`
differs from the seed, and otherwise succeeds with the freshly seeded coin
and the cursor placed just after the seed. -/
theorem verifier_new_spec (seed proof : List Nat) (h : seed.length ≤ proof.length) :
    (proof.take seed.length ≠ seed → VerifierChannel.new seed proof = .error .prefixMismatch) ∧
    (proof.take seed.length = seed →
      VerifierChannel.new seed proof =
        .ok { coin := PublicCoin.new seed, proof := proof, proof_index := seed.length }) := by
  constructor
  · intro hne
    unfold VerifierChannel.new
    rw [if_pos h, if_neg hne]
  · intro heq
    unfold VerifierChannel.new
    rw [if_pos h, if_pos heq]

theorem verifier_new_spec_witness :
    (([1, 3, 5] : List Nat).take ([1, 2] : List Nat).length ≠ [1, 2] →
      VerifierChannel.new [1, 2] [1, 3, 5] = .error .prefixMismatch) ∧
    (([1, 3, 5] : List Nat).take ([1, 2] : List Nat).length = [1, 2] →
      VerifierChannel.new [1, 2] [1, 3, 5] =
        .ok { coin := PublicCoin.new [1, 2], proof := [1, 3, 5], proof_index := ([1, 2] : List Nat).length }) :=
  verifier_new_spec [1, 2] [1, 3, 5] (by norm_num)

/-- C8 counterexample: with a proof shorter than the seed, the slice
`proof[0..seed.len()]` (modelled as `take`) differs from the seed, yet the
constructor does not report `prefixMismatch` — it hits the out-of-bounds
slice first. -/
theorem verifier_new_short_not_prefix_mismatch :
    (([] : List Nat).take ([0] : List Nat).length ≠ [0]) ∧
    ∃ e, VerifierChannel.new [0] [] = .error e ∧ e ≠ ChannelError.prefixMismatch :=
  ⟨by decide, .outOfBounds, rfl, by decide⟩

/-- C5: the field-element draw repeatedly draws a `U256`, masks off the top
four bits and retries while the masked value is not below the modulus;
whenever the loop returns, the returned value is strictly below `MODULUS`. -/
theorem get_random_field_lt_modulus (c : PublicCoin) (fuel : Nat) (x : Nat) (c' : PublicCoin)
    (h : c.get_random_field_aux fuel = some (x, c')) : x < MODULUS := by
  induction fuel generalizing c with
  | zero => exact absurd h (by simp [PublicCoin.get_random_field_aux])
  | succ fuel ih =>
    rw [PublicCoin.get_random_field_aux] at h
    by_cases hc : (c.get_random_u256).1 &&& MASK < MODULUS
    · simp only [if_pos hc, Option.some.injEq, Prod.mk.injEq] at h
      omega
    · simp only [if_neg hc] at h
      exact ih _ h

set_option maxRecDepth 100000 in
theorem get_random_field_lt_modulus_witness :
    (((PublicCoin.new testSeed).get_random_field_aux 3).getD (0, ⟨[], 0⟩)).1 < MODULUS :=
  get_random_field_lt_modulus (PublicCoin.new testSeed) 3
    (((PublicCoin.new testSeed).get_random_field_aux 3).getD (0, ⟨[], 0⟩)).1
    (((PublicCoin.new testSeed).get_random_field_aux 3).getD (0, ⟨[], 0⟩)).2 rfl

/-- C6: the proof-of-work seed is Keccak256(tag ‖ digest ‖ [bits]) with the
fixed 8-byte domain tag `0x0123456789abcded`, and verification accepts a
nonce exactly when Keccak256(pow_seed ‖ nonce_be_u64), read as a big-endian
256-bit integer, has at least `bits` leading zero bits — equivalently, is
below `2^(256 - bits)`; both operations are pure functions of the coin
state (they are modelled, as implemented, without returning a coin). -/
theorem pow_seed_verify_spec (c : PublicCoin) (nonce pow_bits : Nat) (hb : pow_bits ≤ 256) :
    c.pow_seed pow_bits = keccak256 (powTag ++ c.digest ++ [pow_bits % 256]) ∧
    (c.pow_verify nonce pow_bits = true ↔
      fromBeBytes (keccak256 (c.pow_seed pow_bits ++ beBytes 8 nonce)) < 2 ^ (256 - pow_bits)) := by
  refine ⟨rfl, ?_⟩
  rw [PublicCoin.pow_verify, pow_verify_with_seed, decide_eq_true_iff]
  have hv : fromBeBytes (keccak256 (c.pow_seed pow_bits ++ beBytes 8 nonce)) < 2 ^ 256 :=
    keccak256_value_lt _
  rw [leadingZeros256]
  have hlen : bitLenAux 256 (fromBeBytes (keccak256 (c.pow_seed pow_bits ++ beBytes 8 nonce))) ≤ 256 :=
    (bitLenAux_le_iff 256 _ 256 hv).mpr hv
  constructor
  · intro h
    exact (bitLenAux_le_iff 256 _ (256 - pow_bits) hv).mp (by omega)
  · intro h
    have := (bitLenAux_le_iff 256 _ (256 - pow_bits) hv).mpr h
    omega

theorem pow_seed_verify_spec_witness :
    PublicCoin.pow_seed ⟨List.replicate 32 0, 0⟩ 12 =
      keccak256 (powTag ++ List.replicate 32 0 ++ [12 % 256]) ∧
    (PublicCoin.pow_verify ⟨List.replicate 32 0, 0⟩ 7 12 = true ↔
      fromBeBytes (keccak256 (PublicCoin.pow_seed ⟨List.replicate 32 0, 0⟩ 12 ++ beBytes 8 7)) <
        2 ^ (256 - 12)) :=
  pow_seed_verify_spec ⟨List.replicate 32 0, 0⟩ 7 12 (by norm_num)

theorem pow_verify_with_seed_zero_bits (n : Nat) (s : List Nat) :
    pow_verify_with_seed n 0 s = true := by
  simp [pow_verify_with_seed]

/-- C7: when some `u64` nonce verifies (i.e. the search returns), the
single-threaded `pow_find_nonce` returns a verifying nonce and it is the
smallest one — every smaller nonce fails verification — and any possible
result of the parallel `find_any` search also verifies. -/
theorem pow_find_nonce_spec (c : PublicCoin) (pow_bits : Nat)
    (h : ∃ n, n < 2 ^ 64 ∧ pow_verify_with_seed n pow_bits (c.pow_seed pow_bits) = true) :
    c.pow_verify (c.pow_find_nonce pow_bits h) pow_bits = true ∧
    (∀ m, m < c.pow_find_nonce pow_bits h → c.pow_verify m pow_bits = false) ∧
    (∀ n, pow_find_nonce_threaded_result c pow_bits n → c.pow_verify n pow_bits = true) := by
  refine ⟨(Nat.find_spec h).2, ?_, fun n hn => hn.2⟩
  intro m hm
  have hmin := Nat.find_min h hm
  have hm64 : m < 2 ^ 64 := lt_trans hm (Nat.find_spec h).1
  rw [PublicCoin.pow_verify]
  by_cases hv : pow_verify_with_seed m pow_bits (c.pow_seed pow_bits) = true
  · exact absurd ⟨hm64, hv⟩ hmin
  · exact Bool.eq_false_iff.mpr hv

theorem pow_find_nonce_spec_witness :
    PublicCoin.pow_verify ⟨List.replicate 32 0, 0⟩
      (PublicCoin.pow_find_nonce ⟨List.replicate 32 0, 0⟩ 0
        ⟨0, by norm_num, pow_verify_with_seed_zero_bits 0 _⟩) 0 = true :=
  (pow_find_nonce_spec ⟨List.replicate 32 0, 0⟩ 0
    ⟨0, by norm_num, pow_verify_with_seed_zero_bits 0 _⟩).1

theorem replay_block_eq (vc : VerifierChannel) :
    vc.replay_block =
      if vc.proof_index + 32 ≤ vc.proof.length then
        (.ok ((vc.proof.drop vc.proof_index).take 32),
         { vc with proof_index := vc.proof_index + 32,
                   coin := vc.coin.write_bytes ((vc.proof.drop vc.proof_index).take 32) })
      else (.error .outOfBounds, { vc with proof_index := vc.proof_index + 32 }) := rfl

theorem replay_u64_eq (vc : VerifierChannel) :
    vc.replay_u64 =
      if vc.proof_index + 8 ≤ vc.proof.length then
        (.ok (fromBeBytes ((vc.proof.drop vc.proof_index).take 8)),
         { vc with proof_index := vc.proof_index + 8,
                   coin := vc.coin.write_bytes ((vc.proof.drop vc.proof_index).take 8) })
      else (.error .outOfBounds, { vc with proof_index := vc.proof_index + 8 }) := rfl

theorem replay_u256_eq (vc : VerifierChannel) :
    vc.replay_u256 =
      if vc.proof_index + 32 ≤ vc.proof.length then
        (.ok (fromBeBytes ((vc.proof.drop vc.proof_index).take 32)),
         { vc with proof_index := vc.proof_index + 32,
                   coin := vc.coin.write_bytes ((vc.proof.drop vc.proof_index).take 32) })
      else (.error .outOfBounds, { vc with proof_index := vc.proof_index + 32 }) := by
  unfold VerifierChannel.replay_u256
  rw [replay_block_eq]
  by_cases h : vc.proof_index + 32 ≤ vc.proof.length
  · rw [if_pos h, if_pos h]
  · rw [if_neg h, if_neg h]

theorem replay_field_element_eq (vc : VerifierChannel) :
    vc.replay_field_element =
      if vc.proof_index + 32 ≤ vc.proof.length then
        (.ok (fromBeBytes ((vc.proof.drop vc.proof_index).take 32)),
         { vc with proof_index := vc.proof_index + 32,
                   coin := vc.coin.write_bytes ((vc.proof.drop vc.proof_index).take 32) })
      else (.error .outOfBounds, { vc with proof_index := vc.proof_index + 32 }) := by
  unfold VerifierChannel.replay_field_element
  rw [replay_block_eq]
  by_cases h : vc.proof_index + 32 ≤ vc.proof.length
  · rw [if_pos h, if_pos h]
  · rw [if_neg h, if_neg h]

theorem replay_many_field_loop_succ (n : Nat) (vc : VerifierChannel) :
    replay_many_field_loop (n + 1) vc =
      if vc.proof_index + 32 ≤ vc.proof.length then
        match replay_many_field_loop n { vc with proof_index := vc.proof_index + 32 } with
        | (.ok vs, vc') =>
          (.ok (fromBeBytes ((vc.proof.drop vc.proof_index).take 32) :: vs), vc')
        | (e, vc') => (e, vc')
      else (.error .outOfBounds, { vc with proof_index := vc.proof_index + 32 }) := rfl

theorem replay_many_field_loop_oob (n : Nat) :
    ∀ vc : VerifierChannel,
    ((replay_many_field_loop n vc).1 = .error .outOfBounds ↔
      vc.proof.length - vc.proof_index < 32 * n) ∧
    (replay_many_field_loop n vc).2.coin = vc.coin := by
  induction n with
  | zero =>
    intro vc
    exact ⟨iff_of_false (by simp [replay_many_field_loop]) (by omega), rfl⟩
  | succ n ih =>
    intro vc
    rw [replay_many_field_loop_succ]
    by_cases h : vc.proof_index + 32 ≤ vc.proof.length
    · rw [if_pos h]
      rcases hrec : replay_many_field_loop n { vc with proof_index := vc.proof_index + 32 } with ⟨r, vc2⟩
      have ihh := ih { vc with proof_index := vc.proof_index + 32 }
      rw [hrec] at ihh
      dsimp only at ihh
      cases r with
      | ok vs =>
        dsimp only
        refine ⟨iff_of_false (by simp) ?_, ihh.2⟩
        intro hlt
        exact absurd (ihh.1.mpr (by omega)) (by simp)
      | error e =>
        dsimp only
        refine ⟨?_, ihh.2⟩
        rw [ihh.1]
        omega
    · rw [if_neg h]
      exact ⟨iff_of_true rfl (by omega), rfl⟩

theorem replay_many_field_oob (vc : VerifierChannel) (n : Nat) :
    ((vc.replay_many_field n).1 = .error .outOfBounds ↔
      vc.proof.length - vc.proof_index < 32 * n) ∧
    ((vc.replay_many_field n).1 = .error .outOfBounds →
      (vc.replay_many_field n).2.coin = vc.coin) := by
  unfold VerifierChannel.replay_many_field
  have hloop := replay_many_field_loop_oob n vc
  rcases hrec : replay_many_field_loop n vc with ⟨r, vc'⟩
  rw [hrec] at hloop
  cases r with
  | ok vs =>
    refine ⟨?_, fun hc => absurd hc (by simp)⟩
    simpa using hloop.1
  | error e => exact ⟨by simpa using hloop.1, fun _ => hloop.2⟩

theorem replay_many_u256_oob (n : Nat) :
    ∀ vc : VerifierChannel,
    ((vc.replay_many_u256 n).1 = .error .outOfBounds ↔
      vc.proof.length - vc.proof_index < 32 * n) := by
  induction n with
  | zero =>
    intro vc
    exact iff_of_false (by simp [VerifierChannel.replay_many_u256]) (by omega)
  | succ n ih =>
    intro vc
    rw [VerifierChannel.replay_many_u256, replay_u256_eq]
    by_cases h : vc.proof_index + 32 ≤ vc.proof.length
    · rw [if_pos h]
      rcases hrec : VerifierChannel.replay_many_u256
          { vc with proof_index := vc.proof_index + 32,
                    coin := vc.coin.write_bytes ((vc.proof.drop vc.proof_index).take 32) } n
        with ⟨r, vc2⟩
      have ihh := ih { vc with proof_index := vc.proof_index + 32,
                               coin := vc.coin.write_bytes ((vc.proof.drop vc.proof_index).take 32) }
      rw [hrec] at ihh
      dsimp only at ihh
      dsimp only
      rw [hrec]
      cases r with
      | ok vs =>
        dsimp only
        refine iff_of_false (by simp) ?_
        intro hlt
        exact absurd (ihh.mpr (by omega)) (by simp)
      | error e =>
        dsimp only
        rw [ihh]
        omega
    · rw [if_neg h]
      exact iff_of_true rfl (by omega)

theorem replay_block_oob (vc : VerifierChannel) :
    ((vc.replay_block).1 = .error .outOfBounds ↔ vc.proof.length - vc.proof_index < 32) ∧
    ((vc.replay_block).1 = .error .outOfBounds → (vc.replay_block).2.coin = vc.coin) := by
  rw [replay_block_eq]
  by_cases h : vc.proof_index + 32 ≤ vc.proof.length
  · rw [if_pos h]
    exact ⟨iff_of_false (by simp) (by omega), fun hc => absurd hc (by simp)⟩
  · rw [if_neg h]
    exact ⟨iff_of_true rfl (by omega), fun _ => rfl⟩

theorem replay_u64_oob (vc : VerifierChannel) :
    ((vc.replay_u64).1 = .error .outOfBounds ↔ vc.proof.length - vc.proof_index < 8) ∧
    ((vc.replay_u64).1 = .error .outOfBounds → (vc.replay_u64).2.coin = vc.coin) := by
  rw [replay_u64_eq]
  by_cases h : vc.proof_index + 8 ≤ vc.proof.length
  · rw [if_pos h]
    exact ⟨iff_of_false (by simp) (by omega), fun hc => absurd hc (by simp)⟩
  · rw [if_neg h]
    exact ⟨iff_of_true rfl (by omega), fun _ => rfl⟩

theorem replay_field_element_oob (vc : VerifierChannel) :
    ((vc.replay_field_element).1 = .error .outOfBounds ↔ vc.proof.length - vc.proof_index < 32) ∧
    ((vc.replay_field_element).1 = .error .outOfBounds →
      (vc.replay_field_element).2.coin = vc.coin) := by
  rw [replay_field_element_eq]
  by_cases h : vc.proof_index + 32 ≤ vc.proof.length
  · rw [if_pos h]
    exact ⟨iff_of_false (by simp) (by omega), fun hc => absurd hc (by simp)⟩
  · rw [if_neg h]
    exact ⟨iff_of_true rfl (by omega), fun _ => rfl⟩

theorem replay_u256_single_oob (vc : VerifierChannel) :
    ((vc.replay_u256).1 = .error .outOfBounds ↔ vc.proof.length - vc.proof_index < 32) ∧
    ((vc.replay_u256).1 = .error .outOfBounds → (vc.replay_u256).2.coin = vc.coin) := by
  rw [replay_u256_eq]
  by_cases h : vc.proof_index + 32 ≤ vc.proof.length
  · rw [if_pos h]
    exact ⟨iff_of_false (by simp) (by omega), fun hc => absurd hc (by simp)⟩
  · rw [if_neg h]
    exact ⟨iff_of_true rfl (by omega), fun _ => rfl⟩

/-- C9 (amended): every single `replay` fails with `OutOfBounds` exactly
when fewer than `encoded_size(T)` bytes remain after the cursor (32 for
blocks, field elements and `U256`, 8 for `u64`) and leaves the coin's
digest and counter unchanged on that error path; `replay_many(n)` fails
exactly when fewer than `n * encoded_size(T)` bytes remain — the overridden
`FieldElement` `replay_many` also leaves the coin unchanged on failure, but
the default per-element `replay_many` (the `U256` case) absorbs every
fully-read element before failing, so on its error path the coin may
already have been mutated. -/
theorem replay_out_of_bounds_spec (vc : VerifierChannel) (n : Nat) :
    (((vc.replay_block).1 = .error .outOfBounds ↔ vc.proof.length - vc.proof_index < 32) ∧
      ((vc.replay_block).1 = .error .outOfBounds → (vc.replay_block).2.coin = vc.coin)) ∧
    (((vc.replay_u64).1 = .error .outOfBounds ↔ vc.proof.length - vc.proof_index < 8) ∧
      ((vc.replay_u64).1 = .error .outOfBounds → (vc.replay_u64).2.coin = vc.coin)) ∧
    (((vc.replay_field_element).1 = .error .outOfBounds ↔
        vc.proof.length - vc.proof_index < 32) ∧
      ((vc.replay_field_element).1 = .error .outOfBounds →
        (vc.replay_field_element).2.coin = vc.coin)) ∧
    (((vc.replay_u256).1 = .error .outOfBounds ↔ vc.proof.length - vc.proof_index < 32) ∧
      ((vc.replay_u256).1 = .error .outOfBounds → (vc.replay_u256).2.coin = vc.coin)) ∧
    (((vc.replay_many_field n).1 = .error .outOfBounds ↔
        vc.proof.length - vc.proof_index < 32 * n) ∧
      ((vc.replay_many_field n).1 = .error .outOfBounds →
        (vc.replay_many_field n).2.coin = vc.coin)) ∧
    ((vc.replay_many_u256 n).1 = .error .outOfBounds ↔
      vc.proof.length - vc.proof_index < 32 * n) :=
  ⟨replay_block_oob vc, replay_u64_oob vc, replay_field_element_oob vc,
   replay_u256_single_oob vc, replay_many_field_oob vc n, replay_many_u256_oob n vc⟩

theorem replay_out_of_bounds_spec_witness :
    (VerifierChannel.replay_block ⟨⟨[], 5⟩, [], 0⟩).2.coin = (⟨[], 5⟩ : PublicCoin) :=
  (replay_out_of_bounds_spec ⟨⟨[], 5⟩, [], 0⟩ 1).1.2 rfl

/-- C9 counterexample: on a channel whose buffer holds one full 32-byte
element plus 16 spare bytes, the default `replay_many::<U256>(2)` fails
with `OutOfBounds`, yet its error path has already absorbed the first
element into the coin — the counter was reset from 5 to 0 — so the coin is
not unchanged. -/
theorem replay_many_u256_mutates_coin :
    (VerifierChannel.replay_many_u256
        ⟨⟨List.replicate 32 0, 5⟩, List.replicate 48 0, 0⟩ 2).1 =
      Except.error ChannelError.outOfBounds ∧
    (VerifierChannel.replay_many_u256
        ⟨⟨List.replicate 32 0, 5⟩, List.replicate 48 0, 0⟩ 2).2.coin.counter ≠
      (5 : Nat) :=
  ⟨rfl, by decide⟩

theorem write_u256_vec_eq (xs : List Nat) :
    ∀ pc : ProverChannel,
    pc.write_u256_vec xs =
      { coin := xs.foldl (fun c x => c.write_bytes (beBytes 32 x)) pc.coin,
        proof := pc.proof ++ (xs.map (beBytes 32)).flatten } := by
  induction xs with
  | nil =>
    intro pc
    show pc = _
    cases pc
    simp [List.foldl]
  | cons x xs ih =>
    intro pc
    show (pc.write_u256 x).write_u256_vec xs = _
    rw [ih]
    simp [ProverChannel.write_u256, ProverChannel.write_bytes, List.foldl_cons,
      List.append_assoc]

theorem proverStep_proof (pc : ProverChannel) (w : WriteData) :
    (proverStep pc w).proof = pc.proof ++ encBytes w := by
  cases w with
  | u256_vec xs =>
    rw [proverStep, write_u256_vec_eq]
    rfl
  | block b => rfl
  | u64val n => rfl
  | field_elt x => rfl
  | field_slice xs => rfl

theorem encAll_cons (w : WriteData) (ws : List WriteData) :
    encAll (w :: ws) = encBytes w ++ encAll ws := by
  simp [encAll]

theorem proverRun_proof (ws : List WriteData) :
    ∀ pc : ProverChannel, (proverRun pc ws).proof = pc.proof ++ encAll ws := by
  induction ws with
  | nil => intro pc; simp [proverRun, encAll]
  | cons w ws ih =>
    intro pc
    rw [proverRun, ih, proverStep_proof, encAll_cons, List.append_assoc]

theorem replay_many_field_loop_reads (xs : List Nat) :
    ∀ (vc : VerifierChannel) (pre rest : List Nat),
    vc.proof = pre ++ ((xs.map (beBytes 32)).flatten ++ rest) →
    vc.proof_index = pre.length →
    (∀ x ∈ xs, x < 2 ^ 256) →
    replay_many_field_loop xs.length vc =
      (.ok xs, { vc with proof_index := pre.length + 32 * xs.length }) := by
  induction xs with
  | nil =>
    intro vc pre rest hp hi _
    simp only [List.length_nil, Nat.mul_zero, Nat.add_zero, replay_many_field_loop]
    rw [← hi]
  | cons x xs ih =>
    intro vc pre rest hp hi hwf
    have hxlen : (beBytes 32 x).length = 32 := beBytes_length 32 x
    have hp' : vc.proof = pre ++ (beBytes 32 x ++ ((xs.map (beBytes 32)).flatten ++ rest)) := by
      rw [hp]; simp [List.append_assoc]
    have hle : vc.proof_index + 32 ≤ vc.proof.length := by
      rw [hi, hp']
      simp only [List.length_append, hxlen]
      omega
    have hread : (vc.proof.drop vc.proof_index).take 32 = beBytes 32 x := by
      have hdt := drop_take_append pre (beBytes 32 x) ((xs.map (beBytes 32)).flatten ++ rest)
      rw [hxlen] at hdt
      rw [hi, hp']
      exact hdt
    have hx : x % 256 ^ 32 = x := by
      have h256 : (256 : Nat) ^ 32 = 2 ^ 256 := by norm_num
      exact Nat.mod_eq_of_lt (lt_of_lt_of_eq (hwf x (by simp)) h256.symm)
    have hrec := ih { vc with proof_index := vc.proof_index + 32 } (pre ++ beBytes 32 x) rest
      (by dsimp only; rw [hp']; simp [List.append_assoc])
      (by dsimp only; rw [hi]; simp [hxlen])
      (fun y hy => hwf y (by simp [hy]))
    simp only [List.length_cons]
    rw [replay_many_field_loop_succ, if_pos hle, hread, hrec]
    dsimp only
    rw [fromBeBytes_beBytes, hx]
    have harith : (pre ++ beBytes 32 x).length + 32 * xs.length = pre.length + 32 * (xs.length + 1) := by
      simp only [List.length_append, hxlen]
      omega
    rw [harith]

theorem replay_many_u256_reads (xs : List Nat) :
    ∀ (vc : VerifierChannel) (pre rest : List Nat),
    vc.proof = pre ++ ((xs.map (beBytes 32)).flatten ++ rest) →
    vc.proof_index = pre.length →
    (∀ x ∈ xs, x < 2 ^ 256) →
    vc.replay_many_u256 xs.length =
      (.ok xs,
       { coin := xs.foldl (fun c x => c.write_bytes (beBytes 32 x)) vc.coin,
         proof := vc.proof, proof_index := pre.length + 32 * xs.length }) := by
  induction xs with
  | nil =>
    intro vc pre rest hp hi _
    simp only [List.length_nil, Nat.mul_zero, Nat.add_zero, List.foldl_nil,
      VerifierChannel.replay_many_u256]
    rw [← hi]
  | cons x xs ih =>
    intro vc pre rest hp hi hwf
    have hxlen : (beBytes 32 x).length = 32 := beBytes_length 32 x
    have hp' : vc.proof = pre ++ (beBytes 32 x ++ ((xs.map (beBytes 32)).flatten ++ rest)) := by
      rw [hp]; simp [List.append_assoc]
    have hle : vc.proof_index + 32 ≤ vc.proof.length := by
      rw [hi, hp']
      simp only [List.length_append, hxlen]
      omega
    have hread : (vc.proof.drop vc.proof_index).take 32 = beBytes 32 x := by
      have hdt := drop_take_append pre (beBytes 32 x) ((xs.map (beBytes 32)).flatten ++ rest)
      rw [hxlen] at hdt
      rw [hi, hp']
      exact hdt
    have hx : x % 256 ^ 32 = x := by
      have h256 : (256 : Nat) ^ 32 = 2 ^ 256 := by norm_num
      exact Nat.mod_eq_of_lt (lt_of_lt_of_eq (hwf x (by simp)) h256.symm)
    have hrec := ih { vc with
        proof_index := vc.proof_index + 32,
        coin := vc.coin.write_bytes (beBytes 32 x) } (pre ++ beBytes 32 x) rest
      (by dsimp only; rw [hp']; simp [List.append_assoc])
      (by dsimp only; rw [hi]; simp [hxlen])
      (fun y hy => hwf y (by simp [hy]))
    simp only [List.length_cons]
    rw [VerifierChannel.replay_many_u256, replay_u256_eq, if_pos hle, hread]
    dsimp only
    rw [hrec]
    dsimp only
    rw [fromBeBytes_beBytes, hx]
    have harith : (pre ++ beBytes 32 x).length + 32 * xs.length = pre.length + 32 * (xs.length + 1) := by
      simp only [List.length_append, hxlen]
      omega
    rw [harith, List.foldl_cons]

theorem replayStep_ok (pc : ProverChannel) (w : WriteData) (rest : List Nat)
    (vc : VerifierChannel)
    (hwf : w.wf = true)
    (hcoin : vc.coin = pc.coin)
    (hproof : vc.proof = pc.proof ++ (encBytes w ++ rest))
    (hidx : vc.proof_index = pc.proof.length) :
    ∃ vc', replayStep vc w = .ok (w, vc') ∧
      vc'.coin = (proverStep pc w).coin ∧
      vc'.proof = vc.proof ∧
      vc'.proof_index = pc.proof.length + (encBytes w).length := by
  cases w with
  | block b =>
    have hb : b.length = 32 := by simpa [WriteData.wf] using hwf
    simp only [encBytes] at hproof ⊢
    have hle : vc.proof_index + 32 ≤ vc.proof.length := by
      rw [hidx, hproof]
      simp only [List.length_append, hb]
      omega
    have hread : (vc.proof.drop vc.proof_index).take 32 = b := by
      have hdt := drop_take_append pc.proof b rest
      rw [hb] at hdt
      rw [hidx, hproof]
      exact hdt
    refine ⟨{ vc with
        proof_index := vc.proof_index + 32,
        coin := vc.coin.write_bytes ((vc.proof.drop vc.proof_index).take 32) }, ?_, ?_, rfl, ?_⟩
    · simp only [replayStep]
      rw [replay_block_eq, if_pos hle]
      dsimp only
      rw [hread]
    · dsimp only
      rw [hread, hcoin]
      rfl
    · dsimp only
      rw [hidx, hb]
  | u64val n =>
    have hn : n < 2 ^ 64 := by simpa [WriteData.wf] using hwf
    have hlen : (beBytes 8 n).length = 8 := beBytes_length 8 n
    simp only [encBytes] at hproof ⊢
    have hle : vc.proof_index + 8 ≤ vc.proof.length := by
      rw [hidx, hproof]
      simp only [List.length_append, hlen]
      omega
    have hread : (vc.proof.drop vc.proof_index).take 8 = beBytes 8 n := by
      have hdt := drop_take_append pc.proof (beBytes 8 n) rest
      rw [hlen] at hdt
      rw [hidx, hproof]
      exact hdt
    have hmod : n % 256 ^ 8 = n := by
      have h64 : (256 : Nat) ^ 8 = 2 ^ 64 := by norm_num
      exact Nat.mod_eq_of_lt (lt_of_lt_of_eq hn h64.symm)
    refine ⟨{ vc with
        proof_index := vc.proof_index + 8,
        coin := vc.coin.write_bytes ((vc.proof.drop vc.proof_index).take 8) }, ?_, ?_, rfl, ?_⟩
    · simp only [replayStep]
      rw [replay_u64_eq, if_pos hle]
      dsimp only
      rw [hread, fromBeBytes_beBytes, hmod]
    · dsimp only
      rw [hread, hcoin]
      rfl
    · dsimp only
      rw [hidx, hlen]
  | field_elt x =>
    have hx : x < 2 ^ 256 := by simpa [WriteData.wf] using hwf
    have hlen : (beBytes 32 x).length = 32 := beBytes_length 32 x
    simp only [encBytes] at hproof ⊢
    have hle : vc.proof_index + 32 ≤ vc.proof.length := by
      rw [hidx, hproof]
      simp only [List.length_append, hlen]
      omega
    have hread : (vc.proof.drop vc.proof_index).take 32 = beBytes 32 x := by
      have hdt := drop_take_append pc.proof (beBytes 32 x) rest
      rw [hlen] at hdt
      rw [hidx, hproof]
      exact hdt
    have hmod : x % 256 ^ 32 = x := by
      have h256 : (256 : Nat) ^ 32 = 2 ^ 256 := by norm_num
      exact Nat.mod_eq_of_lt (lt_of_lt_of_eq hx h256.symm)
    refine ⟨{ vc with
        proof_index := vc.proof_index + 32,
        coin := vc.coin.write_bytes ((vc.proof.drop vc.proof_index).take 32) }, ?_, ?_, rfl, ?_⟩
    · simp only [replayStep]
      rw [replay_field_element_eq, if_pos hle]
      dsimp only
      rw [hread, fromBeBytes_beBytes, hmod]
    · dsimp only
      rw [hread, hcoin]
      rfl
    · dsimp only
      rw [hidx, hlen]
  | field_slice xs =>
    have hxs : ∀ y ∈ xs, y < 2 ^ 256 := by simpa [WriteData.wf] using hwf
    simp only [encBytes] at hproof ⊢
    have hflatlen : ((xs.map (beBytes 32)).flatten).length = 32 * xs.length := enc32_length xs
    have hloop := replay_many_field_loop_reads xs vc pc.proof rest hproof hidx hxs
    have hbytes : (vc.proof.drop vc.proof_index).take (pc.proof.length + 32 * xs.length - vc.proof_index) =
        (xs.map (beBytes 32)).flatten := by
      have hdt := drop_take_append pc.proof ((xs.map (beBytes 32)).flatten) rest
      rw [hflatlen] at hdt
      rw [hidx, hproof]
      have : pc.proof.length + 32 * xs.length - pc.proof.length = 32 * xs.length := by omega
      rw [this]
      exact hdt
    refine ⟨{ vc with
        proof_index := pc.proof.length + 32 * xs.length,
        coin := vc.coin.write_bytes ((xs.map (beBytes 32)).flatten) }, ?_, ?_, rfl, ?_⟩
    · simp only [replayStep]
      unfold VerifierChannel.replay_many_field
      rw [hloop]
      dsimp only
      rw [hbytes]
    · dsimp only
      rw [hcoin]
      rfl
    · dsimp only
      rw [hflatlen]
  | u256_vec xs =>
    have hxs : ∀ y ∈ xs, y < 2 ^ 256 := by simpa [WriteData.wf] using hwf
    simp only [encBytes] at hproof ⊢
    have hflatlen : ((xs.map (beBytes 32)).flatten).length = 32 * xs.length := enc32_length xs
    have hreads := replay_many_u256_reads xs vc pc.proof rest hproof hidx hxs
    refine ⟨{ coin := xs.foldl (fun c x => c.write_bytes (beBytes 32 x)) vc.coin,
              proof := vc.proof, proof_index := pc.proof.length + 32 * xs.length }, ?_, ?_, rfl, ?_⟩
    · simp only [replayStep]
      rw [hreads]
    · dsimp only
      rw [hcoin, proverStep, write_u256_vec_eq]
    · dsimp only
      rw [hflatlen]

theorem verifierRun_ok (ws : List WriteData) :
    ∀ (pc : ProverChannel) (rest : List Nat) (vc : VerifierChannel),
    (∀ w ∈ ws, w.wf = true) →
    vc.coin = pc.coin →
    vc.proof = pc.proof ++ (encAll ws ++ rest) →
    vc.proof_index = pc.proof.length →
    ∃ vcf, verifierRun vc ws = .ok (ws.zip (proverCoins pc ws), vcf) := by
  induction ws with
  | nil =>
    intro pc rest vc _ _ _ _
    exact ⟨vc, rfl⟩
  | cons w ws ih =>
    intro pc rest vc hwf hcoin hproof hidx
    have hw : w.wf = true := hwf w (by simp)
    have hproof' : vc.proof = pc.proof ++ (encBytes w ++ (encAll ws ++ rest)) := by
      rw [hproof, encAll_cons]
      simp [List.append_assoc]
    obtain ⟨vc', hrs, hc', hp', hi'⟩ := replayStep_ok pc w (encAll ws ++ rest) vc hw hcoin hproof' hidx
    obtain ⟨vcf, hrun⟩ := ih (proverStep pc w) rest vc' (fun y hy => hwf y (by simp [hy])) hc'
      (by rw [hp', hproof', proverStep_proof]; simp [List.append_assoc])
      (by rw [hi', proverStep_proof]; simp)
    refine ⟨vcf, ?_⟩
    rw [verifierRun, hrs]
    dsimp only
    rw [hrun]
    dsimp only
    rw [proverCoins, List.zip_cons_cons, hc']

/-- C1: round-trip — for every seed and every sequence of typed writes
(32-byte block, `u64`, field element, field-element slice, `U256` vector,
each value fitting its machine type) on a fresh prover channel, building a
verifier channel from the seed and the prover's proof succeeds, and
replaying the same type sequence returns exactly the written values while
the verifier's coin after each replay equals the prover's coin after the
matching write (in particular the digests agree at every point). -/
theorem channel_round_trip (seed : List Nat) (ws : List WriteData)
    (hwf : ∀ w ∈ ws, w.wf = true) :
    ∃ vc₀ vcf,
      VerifierChannel.new seed (proverRun (ProverChannel.new seed) ws).proof = .ok vc₀ ∧
      verifierRun vc₀ ws = .ok (ws.zip (proverCoins (ProverChannel.new seed) ws), vcf) := by
  have hp : (proverRun (ProverChannel.new seed) ws).proof = seed ++ encAll ws := by
    rw [proverRun_proof]
    rfl
  have hnew : VerifierChannel.new seed (seed ++ encAll ws) =
      .ok { coin := PublicCoin.new seed, proof := seed ++ encAll ws,
            proof_index := seed.length } := by
    unfold VerifierChannel.new
    rw [if_pos (by simp), if_pos (List.take_left seed _)]
  obtain ⟨vcf, hrun⟩ := verifierRun_ok ws (ProverChannel.new seed) []
    ⟨PublicCoin.new seed, seed ++ encAll ws, seed.length⟩ hwf rfl (by simp [ProverChannel.new]) rfl
  refine ⟨_, vcf, ?_, hrun⟩
  rw [hp]
  exact hnew

theorem channel_round_trip_witness :
    ∃ vc₀ vcf,
      VerifierChannel.new [9, 8]
        (proverRun (ProverChannel.new [9, 8])
          [WriteData.u64val 300, WriteData.block (List.replicate 32 7), WriteData.field_elt 5,
           WriteData.field_slice [3, 4], WriteData.u256_vec [6, 2]]).proof = .ok vc₀ ∧
      verifierRun vc₀
          [WriteData.u64val 300, WriteData.block (List.replicate 32 7), WriteData.field_elt 5,
           WriteData.field_slice [3, 4], WriteData.u256_vec [6, 2]] =
        .ok (([WriteData.u64val 300, WriteData.block (List.replicate 32 7), WriteData.field_elt 5,
               WriteData.field_slice [3, 4], WriteData.u256_vec [6, 2]]).zip
               (proverCoins (ProverChannel.new [9, 8])
                 [WriteData.u64val 300, WriteData.block (List.replicate 32 7), WriteData.field_elt 5,
                  WriteData.field_slice [3, 4], WriteData.u256_vec [6, 2]]), vcf) :=
  channel_round_trip [9, 8]
    [WriteData.u64val 300, WriteData.block (List.replicate 32 7), WriteData.field_elt 5,
     WriteData.field_slice [3, 4], WriteData.u256_vec [6, 2]] (by decide)

theorem write_field_slice_one_absorption (pc : ProverChannel) (a b : Nat) :
    (pc.write_field_slice [a, b]).coin =
      pc.coin.write_bytes (beBytes 32 a ++ beBytes 32 b) ∧
    (pc.write_u256_vec [a, b]).coin =
      (pc.coin.write_bytes (beBytes 32 a)).write_bytes (beBytes 32 b) := by
  constructor
  · simp [ProverChannel.write_field_slice, ProverChannel.write_bytes]
  · rfl

set_option maxRecDepth 100000 in
theorem slice_vs_element_digests_differ_example :
    (PublicCoin.write_bytes ⟨List.replicate 32 0, 0⟩ (beBytes 32 1 ++ beBytes 32 2)).digest ≠
      (PublicCoin.write_bytes (PublicCoin.write_bytes ⟨List.replicate 32 0, 0⟩ (beBytes 32 1))
        (beBytes 32 2)).digest := by
  decide
